import Mathlib

/-!
Verification development for the StoryPeek content ranking engine.

The engine consists of a tokenizer, a pairwise similarity scorer, a
recommendation ranker, a trending ranker, a multi-factor search relevance
scorer and a search filter.  The definitions below are a shallow embedding
of the TypeScript source (`useRecommendations.tsx` and the search hook):

* text is represented as `String` in the data model and as `List Char`
  inside the algorithms; `Char.toLower` agrees with JavaScript
  `toLowerCase` on the ASCII range the engine is designed for,
* timestamps are represented by their epoch-millisecond value as a
  rational number (`Date` parsing happens in the host runtime, outside
  the engine),
* JavaScript numbers are modelled by `ℚ` (similarity), `ℕ` (relevance
  scores, which are integer-valued) and `ℝ` (trending scores, which use
  the real exponential),
* the regular expressions built by the relevance scorer use only escaped
  literal characters and the `\b` word-boundary assertion; they are
  modelled by a small token machine (`RTok`) whose compiler rejects every
  pattern outside this fragment, conservatively covering both regex
  syntax errors and unsupported metacharacter semantics.
-/

/-- Whitespace characters recognised by the JavaScript `\s` class and
`String.prototype.trim`, restricted to the ASCII range (the engine is
ASCII-oriented by design). -/
def isWsChar (c : Char) : Bool :=
  c = ' ' || c = '\t' || c = '\n' || c = '\r' || c = '\x0b' || c = '\x0c'

/-- Word characters of the JavaScript `\w` class (no `u` flag): ASCII
letters, ASCII digits and the underscore.  The `\b` assertion is defined
from this class. -/
def isWordChar (c : Char) : Bool :=
  c.isAlpha || c.isDigit || c = '_'

/-- Characters escaped by the source `escapeRegex` helper, the character
class `[.*+?^${}()|[\]\\]`. -/
def isMetaChar (c : Char) : Bool :=
  c = '.' || c = '*' || c = '+' || c = '?' || c = '^' || c = '$' ||
  c = '\x7b' || c = '\x7d' || c = '(' || c = ')' || c = '|' ||
  c = '[' || c = ']' || c = '\\'

/-- Tokens of the regex fragment the relevance scorer emits: literal
characters and the word-boundary assertion. -/
inductive RTok where
  | lit (c : Char)
  | wb
  deriving DecidableEq

/-- Compile a pattern string into tokens.  `\b` becomes the boundary
assertion, an escaped non-alphanumeric character becomes a literal, and
anything else — an unescaped metacharacter, a trailing backslash, or an
escape class such as `\d` — is rejected (`none`), modelling both regex
syntax errors and semantics outside the literal fragment. -/
def regexCompile : List Char → Option (List RTok)
  | [] => some []
  | c :: rest =>
    if c = '\\' then
      match rest with
      | [] => none
      | d :: rest2 =>
        if d = 'b' then (regexCompile rest2).map (RTok.wb :: ·)
        else if d.isAlpha || d.isDigit then none
        else (regexCompile rest2).map (RTok.lit d :: ·)
    else if isMetaChar c then none
    else (regexCompile rest).map (RTok.lit c :: ·)

/-- Word-character status of position `i` in `s`; positions outside the
string count as non-word, as in JavaScript. -/
def wordAtPos (s : List Char) (i : ℕ) : Bool :=
  (s[i]?).elim false isWordChar

/-- Word-character status of the position just before `i`. -/
def wordBefore (s : List Char) (i : ℕ) : Bool :=
  if i = 0 then false else wordAtPos s (i - 1)

/-- JavaScript `\b`: a boundary holds between positions `i - 1` and `i`
exactly when the word-character status changes there. -/
def boundaryAt (s : List Char) (i : ℕ) : Bool :=
  wordBefore s i != wordAtPos s i

/-- Run a token list against `s` starting at position `i`. -/
def matchAt : List RTok → List Char → ℕ → Bool
  | [], _, _ => true
  | RTok.lit c :: ts, s, i =>
    (s[i]?).elim false (fun d => d = c) && matchAt ts s (i + 1)
  | RTok.wb :: ts, s, i => boundaryAt s i && matchAt ts s i

/-- JavaScript `RegExp.prototype.test`: does the pattern match at some
start position?  Start positions beyond `s.length` can never match. -/
def regexTest (toks : List RTok) (s : List Char) : Bool :=
  (List.range (s.length + 1)).any (fun i => matchAt toks s i)

/-- Leftmost match position at or after `pos`. -/
def firstMatchFrom (toks : List RTok) (s : List Char) (pos : ℕ) : Option ℕ :=
  (List.range (s.length + 1)).find? (fun i => decide (pos ≤ i) && matchAt toks s i)

/-- Number of characters a match of the token list consumes. -/
def matchLen (toks : List RTok) : ℕ :=
  toks.countP (fun t => match t with | RTok.lit _ => true | RTok.wb => false)

/-- Fuelled scan behind `regexCount`; each step advances the position by
at least one, so `s.length + 1` fuel is enough. -/
def regexCountAux (toks : List RTok) (s : List Char) : ℕ → ℕ → ℕ
  | 0, _ => 0
  | fuel + 1, pos =>
    match firstMatchFrom toks s pos with
    | none => 0
    | some i => 1 + regexCountAux toks s fuel (i + max (matchLen toks) 1)

/-- JavaScript `str.match(re, "g").length`: count leftmost
non-overlapping matches, advancing past each match (by one position for
a zero-length match). -/
def regexCount (toks : List RTok) (s : List Char) : ℕ :=
  regexCountAux toks s (s.length + 1) 0

/-- Source `escapeRegex`: prepend a backslash to every character of the
class `[.*+?^${}()|[\]\\]`. -/
def escapeRegexL (t : List Char) : List Char :=
  t.flatMap (fun c => if isMetaChar c then ['\\', c] else [c])

/-- Pattern string `\b` + escaped term + `\b` used for whole-word tests. -/
def wbPatStr (t : List Char) : List Char :=
  '\\' :: 'b' :: (escapeRegexL t ++ ['\\', 'b'])

/-- Token form of the literal term. -/
def litToks (t : List Char) : List RTok :=
  t.map RTok.lit

/-- Token form of the whole-word pattern for the term. -/
def wbToks (t : List Char) : List RTok :=
  RTok.wb :: (t.map RTok.lit ++ [RTok.wb])

/-- JavaScript `String.prototype.startsWith` over character lists. -/
def startsW : List Char → List Char → Bool
  | [], _ => true
  | _ :: _, [] => false
  | c :: cs, d :: ds => c = d && startsW cs ds

/-- Occurrence of `t` as the block of characters beginning at position
`i` of `s`. -/
def occursAt : List Char → List Char → ℕ → Bool
  | [], _, _ => true
  | c :: cs, s, i => (s[i]?).elim false (fun d => d = c) && occursAt cs s (i + 1)

/-- JavaScript `String.prototype.includes` over character lists. -/
def hasSub (t s : List Char) : Bool :=
  (List.range (s.length + 1)).any (fun i => occursAt t s i)

/-- Lower-cased character list of a string (`toLowerCase`, ASCII). -/
def lowerL (s : String) : List Char :=
  s.toList.map Char.toLower

/-- Searchable document of the search hook: `content_full` is optional. -/
structure SearchableItem where
  id : String
  title : String
  content_preview : String
  content_full : Option String
  deriving DecidableEq

/-- Title tier of `calculateRelevance` for one term: exact +100, else
starts-with +50, else whole word +30, else substring +15. -/
def titlePts (title term : List Char) : ℕ :=
  if title = term then 100
  else if startsW term title then 50
  else if regexTest (wbToks term) title then 30
  else if hasSub term title then 15
  else 0

/-- Preview tier of `calculateRelevance` for one term: whole word +10,
else substring +5. -/
def previewPts (term text : List Char) : ℕ :=
  if regexTest (wbToks term) text then 10
  else if hasSub term text then 5
  else 0

/-- Full-content tier of `calculateRelevance` for one term: whole word
+3, else substring +1. -/
def fullPts (term text : List Char) : ℕ :=
  if regexTest (wbToks term) text then 3
  else if hasSub term text then 1
  else 0

/-- Contribution of one search term to the relevance score, including
the frequency bonus (title occurrences × 5 + preview occurrences × 2). -/
def termScore (title preview full term : List Char) : ℕ :=
  titlePts title term + previewPts term preview + fullPts term full +
    regexCount (litToks term) title * 5 + regexCount (litToks term) preview * 2

/-- Contribution of one term computed through the pattern compiler, as
the source does with `new RegExp`; `none` models a thrown regex error. -/
def termScoreChecked (title preview full term : List Char) : Option ℕ :=
  match regexCompile (wbPatStr term), regexCompile (escapeRegexL term) with
  | some wb, some lits =>
    some ((if title = term then 100
           else if startsW term title then 50
           else if regexTest wb title then 30
           else if hasSub term title then 15
           else 0)
          + (if regexTest wb preview then 10 else if hasSub term preview then 5 else 0)
          + (if regexTest wb full then 3 else if hasSub term full then 1 else 0)
          + regexCount lits title * 5 + regexCount lits preview * 2)
  | _, _ => none

/-- Source `calculateRelevance`: accumulate every term's contribution
over the lower-cased title, preview and (optional) full content. -/
def calculateRelevance (item : SearchableItem) (terms : List String) : ℕ :=
  terms.foldl
    (fun acc t =>
      acc + termScore (lowerL item.title) (lowerL item.content_preview)
        (lowerL ((item.content_full).getD "")) t.toList)
    0

/-- Relevance computation with every regex construction checked, the
direct image of the source where each `new RegExp` may throw. -/
def calculateRelevanceChecked (item : SearchableItem) (terms : List String) : Option ℕ :=
  terms.foldlM
    (fun acc t =>
      (termScoreChecked (lowerL item.title) (lowerL item.content_preview)
        (lowerL ((item.content_full).getD "")) t.toList).map (acc + ·))
    0

/-- Stop words filtered out by the tokenizer, exactly the source list. -/
def stopWords : List String :=
  ["the", "a", "an", "and", "or", "but", "in", "on", "at", "to", "for",
   "of", "with", "by", "from", "is", "it", "that", "this", "was", "were",
   "are", "be", "been", "being", "have", "has", "had", "do", "does", "did",
   "will", "would", "could", "should", "may", "might", "must", "shall",
   "i", "you", "he", "she", "we", "they", "my", "your", "his", "her", "our",
   "their", "its", "who", "what", "when", "where", "why", "how", "which",
   "as", "if", "so", "than", "very", "just", "about", "into", "through"]

/-- Accumulator-based splitter on whitespace runs. -/
def splitWsAux : List Char → List Char → List (List Char)
  | [], cur => if cur = [] then [] else [cur.reverse]
  | c :: rest, cur =>
    if isWsChar c then
      if cur = [] then splitWsAux rest [] else cur.reverse :: splitWsAux rest []
    else splitWsAux rest (c :: cur)

/-- Split a character list on runs of whitespace, keeping only non-empty
chunks.  JavaScript `split(/\s+/)` can additionally produce empty-string
entries at the ends; the source always discards those by a later filter
(on length or non-emptiness), so the fused form is used throughout. -/
def splitWs (l : List Char) : List (List Char) :=
  splitWsAux l []

/-- Replacement step of the tokenizer's `replace(/[^a-z\s]/g, " ")`:
every character that is neither a lower-case ASCII letter nor whitespace
becomes a space. -/
def cleanChar (c : Char) : Char :=
  if ('a' ≤ c && c ≤ 'z') || isWsChar c then c else ' '

/-- Source `extractKeywords`: lower-case, strip non-letters, split on
whitespace, keep tokens longer than 3 that are not stop words.  The
result is a list in input order; it is not deduplicated. -/
def extractKeywords (text : String) : List String :=
  ((splitWs ((text.toList.map Char.toLower).map cleanChar)).map
      (fun w => String.mk w)).filter
    (fun w => 3 < w.length && !(stopWords.contains w))

/-- Recommendable document of the recommendation hooks.  The timestamp
is the epoch-millisecond value of the source's `created_at` string. -/
structure RecommendablePost where
  id : String
  title : String
  content_preview : String
  user_id : String
  created_at : ℚ
  deriving DecidableEq

/-- Source `calculateSimilarity`: identity short-circuit, Jaccard index
of the two keyword sets, flat same-author boost and a linear recency
factor, combined with the fixed 0.6/0.2 weights. -/
def calculateSimilarity (post1 post2 : RecommendablePost) : ℚ :=
  if post1.id = post2.id then 0
  else
    let keywords1 := (extractKeywords (post1.title ++ " " ++ post1.content_preview)).toFinset
    let keywords2 := (extractKeywords (post2.title ++ " " ++ post2.content_preview)).toFinset
    if keywords1.card = 0 ∨ keywords2.card = 0 then 0
    else
      let inter := (keywords1 ∩ keywords2).card
      let uni := (keywords1 ∪ keywords2).card
      let jaccardScore : ℚ := (inter : ℚ) / (uni : ℚ)
      let authorBoost : ℚ := if post1.user_id = post2.user_id then 0.2 else 0
      let daysDiff : ℚ :=
        |post1.created_at - post2.created_at| / (1000 * 60 * 60 * 24)
      let recencyFactor : ℚ := max 0 (1 - daysDiff / 365)
      jaccardScore * 0.6 + authorBoost + recencyFactor * 0.2

/-- Insert `x` into a list sorted descending by `key`, after every
element whose key is at least `key x`. -/
def insertKeyDesc {α β : Type} [LinearOrder β] (key : α → β) (x : α) :
    List α → List α
  | [] => [x]
  | y :: ys => if key y ≤ key x then x :: y :: ys else y :: insertKeyDesc key x ys

/-- Stable descending sort by a key, the behaviour of the JavaScript
stable `sort((a, b) => key(b) - key(a))`: equal keys keep their input
order.  A stable sort's output is determined by the comparator, so this
insertion sort coincides with the engine's sort. -/
def sortKeyDesc {α β : Type} [LinearOrder β] (key : α → β) (l : List α) : List α :=
  l.foldr (insertKeyDesc key) []

/-- JavaScript `slice(0, e)`: a negative end index counts back from the
end of the array. -/
def jsSliceTo {α : Type} (l : List α) (e : ℤ) : List α :=
  if e < 0 then l.take ((l.length : ℤ) + e).toNat else l.take e.toNat

/-- Source `useRecommendations`: guard against a missing reference or an
empty corpus, drop the reference by id, sort the rest by similarity to
the reference (descending, stable) and truncate with `slice(0, limit)`. -/
def useRecommendations (currentPost : Option RecommendablePost)
    (allPosts : List RecommendablePost) (limit : ℤ) : List RecommendablePost :=
  match currentPost with
  | none => []
  | some cur =>
    if allPosts.length = 0 then []
    else
      jsSliceTo
        (sortKeyDesc (fun post => calculateSimilarity cur post)
          (allPosts.filter (fun post => post.id ≠ cur.id)))
        limit

/-- Source trending score: `exp(-ageHours / 168)` with `ageHours`
measured from the single `now` captured for the whole call. -/
noncomputable def recencyScore (now : ℚ) (post : RecommendablePost) : ℝ :=
  Real.exp (-(((now - post.created_at) / (1000 * 60 * 60) / 168 : ℚ) : ℝ))

/-- Source `useTrendingPosts`: sort by recency score (descending,
stable) and truncate with `slice(0, limit)`. -/
noncomputable def useTrendingPosts (now : ℚ) (posts : List RecommendablePost)
    (limit : ℤ) : List RecommendablePost :=
  jsSliceTo (sortKeyDesc (recencyScore now) posts) limit

/-- JavaScript `String.prototype.trim` over character lists (ASCII
whitespace). -/
def jsTrim (l : List Char) : List Char :=
  ((l.dropWhile isWsChar).reverse.dropWhile isWsChar).reverse

/-- Query terms of the search hook: lower-case the query, split on
whitespace runs and keep the non-empty pieces. -/
def queryTerms (query : String) : List String :=
  (splitWs (query.toList.map Char.toLower)).map (fun w => String.mk w)

/-- Lower-cased `title + " " + content_preview` that the search filter
scans for term occurrences. -/
def searchText (item : SearchableItem) : List Char :=
  lowerL (item.title ++ " " ++ item.content_preview)

/-- Source `useSearch` result list: pass the corpus through unchanged
when the trimmed query is empty or yields no terms, otherwise keep the
items whose searchable text contains some term as a substring and rank
them by relevance (descending, stable). -/
def useSearchFiltered (items : List SearchableItem) (query : String) :
    List SearchableItem :=
  if jsTrim query.toList = [] then items
  else if (queryTerms query).length = 0 then items
  else
    sortKeyDesc (fun item => calculateRelevance item (queryTerms query))
      (items.filter
        (fun item => (queryTerms query).any (fun t => hasSub t.toList (searchText item))))

/-- Source `isSearching` flag: `searchQuery.trim().length > 0`. -/
def isSearching (query : String) : Bool :=
  (jsTrim query.toList).length != 0

/-- Modelled from the spec: a whole-word match is a substring match
bounded by non-letter characters (or string start/end) on both sides,
where "letter" means ASCII letter.  This is the spec's
tokenizer-based boundary check, kept separate from the JavaScript `\b`
model so the two can be compared. -/
def specWholeWord (term text : List Char) : Bool :=
  (List.range (text.length + 1)).any (fun i =>
    occursAt term text i && decide (i + term.length ≤ text.length) &&
    (if i = 0 then true else !((text[i - 1]?).elim false Char.isAlpha)) &&
    !((text[i + term.length]?).elim false Char.isAlpha))

/-- Occurrence of the term at a position carrying a JavaScript word
boundary on each side: the word-character status (ASCII letter, digit
or underscore) changes at both ends of the span, with positions outside
the string counting as non-word. -/
def wholeWordOccurs (term text : List Char) : Prop :=
  ∃ i, i + term.length ≤ text.length ∧ occursAt term text i = true ∧
    boundaryAt text i = true ∧ boundaryAt text (i + term.length) = true

/-- Reference post used by concrete instances. -/
def refPost : RecommendablePost := ⟨"a", "", "", "u", 0⟩

/-- First candidate post used by concrete instances. -/
def candPostA : RecommendablePost := ⟨"b", "", "", "u", 0⟩

/-- Second candidate post used by concrete instances. -/
def candPostB : RecommendablePost := ⟨"c", "", "", "u", 0⟩

/-- Sample post about the Delhi monsoon used by concrete instances. -/
def simPostA : RecommendablePost := ⟨"p1", "Delhi Monsoon Diaries", "", "u1", 0⟩

/-- Sample post sharing a keyword with `simPostA`. -/
def simPostB : RecommendablePost := ⟨"p2", "Monsoon Stories", "", "u2", 86400000⟩

/-- Older trending post (created at epoch). -/
def trendPostA : RecommendablePost := ⟨"t1", "old", "", "u", 0⟩

/-- Newer trending post, created one hour after `trendPostA`. -/
def trendPostB : RecommendablePost := ⟨"t2", "new", "", "u", 3600000⟩

/-- Sample searchable item used by concrete instances. -/
def searchItemA : SearchableItem := ⟨"s1", "Cat", "dog", none⟩

/-- Item whose title is exactly the query term. -/
def helloItem : SearchableItem := ⟨"h1", "hello", "", none⟩

theorem mem_insertKeyDesc {α β : Type} [LinearOrder β] (key : α → β) (x a : α) :
    ∀ l : List α, a ∈ insertKeyDesc key x l ↔ a = x ∨ a ∈ l
  | [] => by simp [insertKeyDesc]
  | y :: ys => by
    simp only [insertKeyDesc]
    split
    · simp
    · simp [mem_insertKeyDesc key x a ys]
      tauto

theorem mem_sortKeyDesc {α β : Type} [LinearOrder β] (key : α → β) (a : α) :
    ∀ l : List α, a ∈ sortKeyDesc key l ↔ a ∈ l
  | [] => by simp [sortKeyDesc]
  | y :: ys => by
    have hys := mem_sortKeyDesc key a ys
    simp only [sortKeyDesc, List.foldr] at hys ⊢
    rw [mem_insertKeyDesc, hys]
    simp

theorem length_insertKeyDesc {α β : Type} [LinearOrder β] (key : α → β) (x : α) :
    ∀ l : List α, (insertKeyDesc key x l).length = l.length + 1
  | [] => rfl
  | y :: ys => by
    simp only [insertKeyDesc]
    split
    · rfl
    · simp [length_insertKeyDesc key x ys]

theorem length_sortKeyDesc {α β : Type} [LinearOrder β] (key : α → β) :
    ∀ l : List α, (sortKeyDesc key l).length = l.length
  | [] => rfl
  | y :: ys => by
    have hys := length_sortKeyDesc key ys
    simp only [sortKeyDesc, List.foldr] at hys ⊢
    rw [length_insertKeyDesc, hys, List.length_cons]

theorem pairwise_insertKeyDesc {α β : Type} [LinearOrder β] (key : α → β) (x : α) :
    ∀ l : List α, l.Pairwise (fun u v => key v ≤ key u) →
      (insertKeyDesc key x l).Pairwise (fun u v => key v ≤ key u)
  | [], _ => List.pairwise_singleton _ x
  | y :: ys, h => by
    simp only [insertKeyDesc]
    rcases List.pairwise_cons.mp h with ⟨hy, hys⟩
    split
    · rename_i hxy
      exact List.pairwise_cons.mpr
        ⟨fun z hz => by
          rcases List.mem_cons.mp hz with rfl | hz
          · exact hxy
          · exact (hy z hz).trans hxy,
         h⟩
    · rename_i hxy
      refine List.pairwise_cons.mpr ⟨fun z hz => ?_, pairwise_insertKeyDesc key x ys hys⟩
      rcases (mem_insertKeyDesc key x z ys).mp hz with rfl | hz
      · exact le_of_not_le hxy
      · exact hy z hz

theorem pairwise_sortKeyDesc {α β : Type} [LinearOrder β] (key : α → β) :
    ∀ l : List α, (sortKeyDesc key l).Pairwise (fun u v => key v ≤ key u)
  | [] => List.Pairwise.nil
  | y :: ys => by
    have hys := pairwise_sortKeyDesc key ys
    simp only [sortKeyDesc, List.foldr] at hys ⊢
    exact pairwise_insertKeyDesc key y _ hys

theorem jsSliceTo_sublist {α : Type} (l : List α) (e : ℤ) :
    (jsSliceTo l e).Sublist l := by
  unfold jsSliceTo
  split <;> exact List.take_sublist _ _

theorem length_jsSliceTo {α : Type} (l : List α) (e : ℤ) :
    (jsSliceTo l e).length =
      if e < 0 then min ((l.length : ℤ) + e).toNat l.length
      else min e.toNat l.length := by
  unfold jsSliceTo
  split <;> simp [List.length_take]

theorem isMetaChar_ne_b {c : Char} (h : isMetaChar c = true) : c ≠ 'b' := by
  intro hc
  subst hc
  exact absurd h (by decide)

theorem isMetaChar_not_alnum {c : Char} (h : isMetaChar c = true) :
    (c.isAlpha || c.isDigit) = false := by
  simp only [isMetaChar, Bool.or_eq_true, decide_eq_true_eq] at h
  rcases h with (((((((((((((h|h)|h)|h)|h)|h)|h)|h)|h)|h)|h)|h)|h)|h) <;>
    subst h <;> decide

theorem ne_backslash_of_not_meta {c : Char} (h : isMetaChar c = false) : c ≠ '\\' := by
  intro hc
  subst hc
  exact absurd h (by decide)

theorem regexCompile_cons_escaped {c : Char} (h : isMetaChar c = true) (l : List Char) :
    regexCompile ('\\' :: c :: l) = (regexCompile l).map (RTok.lit c :: ·) := by
  rw [regexCompile.eq_def]
  simp [isMetaChar_ne_b h, isMetaChar_not_alnum h]

theorem regexCompile_cons_plain {c : Char} (h : isMetaChar c = false) (l : List Char) :
    regexCompile (c :: l) = (regexCompile l).map (RTok.lit c :: ·) := by
  rw [regexCompile.eq_def]
  simp [ne_backslash_of_not_meta h, h]

theorem regexCompile_cons_wb (l : List Char) :
    regexCompile ('\\' :: 'b' :: l) = (regexCompile l).map (RTok.wb :: ·) := by
  rw [regexCompile.eq_def]
  simp

theorem regexCompile_escape_append (rest : List Char) :
    ∀ t : List Char, regexCompile (escapeRegexL t ++ rest) =
      (regexCompile rest).map (litToks t ++ ·)
  | [] => by
    simp [escapeRegexL, litToks]
  | c :: cs => by
    have ih := regexCompile_escape_append rest cs
    by_cases hm : isMetaChar c = true
    · have hsplit : escapeRegexL (c :: cs) ++ rest = '\\' :: c :: (escapeRegexL cs ++ rest) := by
        simp [escapeRegexL, hm]
      rw [hsplit, regexCompile_cons_escaped hm, ih, Option.map_map]
      rfl
    · have hm2 : isMetaChar c = false := by
        simpa using hm
      have hsplit : escapeRegexL (c :: cs) ++ rest = c :: (escapeRegexL cs ++ rest) := by
        simp [escapeRegexL, hm2]
      rw [hsplit, regexCompile_cons_plain hm2, ih, Option.map_map]
      rfl

theorem regexCompile_escape (t : List Char) :
    regexCompile (escapeRegexL t) = some (litToks t) := by
  have h := regexCompile_escape_append [] t
  simpa [regexCompile] using h

theorem regexCompile_wbPat (t : List Char) :
    regexCompile (wbPatStr t) = some (wbToks t) := by
  have h := regexCompile_escape_append ['\\', 'b'] t
  rw [wbPatStr, regexCompile_cons_wb, h]
  rw [show regexCompile ['\\', 'b'] = some [RTok.wb] from rfl]
  rfl

theorem termScoreChecked_eq (title preview full term : List Char) :
    termScoreChecked title preview full term =
      some (termScore title preview full term) := by
  rw [termScoreChecked, regexCompile_wbPat, regexCompile_escape]
  rfl

theorem calculateRelevanceChecked_eq (item : SearchableItem) (terms : List String) :
    calculateRelevanceChecked item terms = some (calculateRelevance item terms) := by
  rw [calculateRelevanceChecked, calculateRelevance]
  generalize (0 : ℕ) = acc
  induction terms generalizing acc with
  | nil => rfl
  | cons t ts ih =>
    rw [List.foldlM_cons, List.foldl_cons, termScoreChecked_eq]
    simp only [Option.map_some, Option.bind_eq_bind, Option.some_bind]
    exact ih _

theorem matchAt_litToks_append (s : List Char) (rest : List RTok) :
    ∀ (t : List Char) (i : ℕ), matchAt (litToks t ++ rest) s i =
      (occursAt t s i && matchAt rest s (i + t.length))
  | [], i => by simp [litToks, occursAt]
  | c :: cs, i => by
    have ih := matchAt_litToks_append s rest cs (i + 1)
    simp only [litToks, List.map_cons, List.cons_append, List.append_eq,
      matchAt, occursAt] at ih ⊢
    rw [ih, ← Bool.and_assoc]
    have hlen : i + 1 + cs.length = i + (c :: cs).length := by
      simp only [List.length_cons]
      omega
    rw [hlen]

theorem matchAt_wbToks (t s : List Char) (i : ℕ) :
    matchAt (wbToks t) s i =
      (boundaryAt s i && (occursAt t s i && boundaryAt s (i + t.length))) := by
  have h := matchAt_litToks_append s [RTok.wb] t i
  rw [wbToks, show RTok.wb :: (t.map RTok.lit ++ [RTok.wb]) =
    RTok.wb :: (litToks t ++ [RTok.wb]) from rfl, matchAt, h]
  simp [matchAt]

theorem occursAt_length_le (s : List Char) :
    ∀ (t : List Char) (i : ℕ), occursAt t s i = true →
      t = [] ∨ i + t.length ≤ s.length
  | [], i, _ => Or.inl rfl
  | c :: cs, i, h => by
    simp only [occursAt, Bool.and_eq_true] at h
    obtain ⟨h1, h2⟩ := h
    have hi : i < s.length := by
      by_contra hlt
      rw [List.getElem?_eq_none (le_of_not_lt hlt)] at h1
      exact absurd h1 (by simp [Option.elim])
    rcases occursAt_length_le s cs (i + 1) h2 with hnil | hle
    · subst hnil
      simpa using hi
    · simp only [List.length_cons]
      omega

theorem regexTest_wbToks_iff (t s : List Char) :
    regexTest (wbToks t) s = true ↔ wholeWordOccurs t s := by
  rw [regexTest, List.any_eq_true]
  constructor
  · rintro ⟨i, hi, hm⟩
    rw [List.mem_range] at hi
    rw [matchAt_wbToks] at hm
    simp only [Bool.and_eq_true] at hm
    obtain ⟨hb1, hocc, hb2⟩ := hm
    refine ⟨i, ?_, hocc, hb1, hb2⟩
    rcases occursAt_length_le s t i hocc with hnil | hle
    · subst hnil
      simpa using Nat.lt_succ_iff.mp hi
    · exact hle
  · rintro ⟨i, hle, hocc, hb1, hb2⟩
    refine ⟨i, ?_, ?_⟩
    · rw [List.mem_range]
      omega
    · rw [matchAt_wbToks]
      simp [hocc, hb1, hb2]

theorem matchAt_litToks (t s : List Char) (i : ℕ) :
    matchAt (litToks t) s i = occursAt t s i := by
  have h := matchAt_litToks_append s [] t i
  simpa [matchAt] using h

theorem hasSub_iff (t s : List Char) :
    hasSub t s = true ↔ ∃ i, i ≤ s.length ∧ occursAt t s i = true := by
  simp [hasSub, List.any_eq_true, List.mem_range, Nat.lt_succ_iff]

theorem regexCount_pos_iff (t s : List Char) :
    0 < regexCount (litToks t) s ↔ hasSub t s = true := by
  rw [regexCount]
  cases h : firstMatchFrom (litToks t) s 0 with
  | none =>
    simp only [regexCountAux, h]
    rw [firstMatchFrom, List.find?_eq_none] at h
    simp only [Nat.lt_irrefl, false_iff]
    intro habs
    rw [hasSub, List.any_eq_true] at habs
    obtain ⟨i, hi, hocc⟩ := habs
    have := h i hi
    rw [matchAt_litToks] at this
    simp [hocc] at this
  | some i =>
    simp only [regexCountAux, h]
    have hpred := List.find?_some h
    have hmem := List.mem_of_find?_eq_some h
    rw [List.mem_range] at hmem
    simp only [Bool.and_eq_true, decide_eq_true_eq] at hpred
    rw [matchAt_litToks] at hpred
    constructor
    · intro _
      rw [hasSub, List.any_eq_true]
      exact ⟨i, List.mem_range.mpr hmem, hpred.2⟩
    · intro _
      omega

theorem isWsChar_toLower {c : Char} (h : isWsChar c = true) : Char.toLower c = c := by
  simp only [isWsChar, Bool.or_eq_true, decide_eq_true_eq] at h
  rcases h with ((((h|h)|h)|h)|h)|h <;> subst h <;> decide

theorem splitWsAux_nil_of_all_ws :
    ∀ l : List Char, (∀ c ∈ l, isWsChar c = true) → splitWsAux l [] = []
  | [], _ => rfl
  | c :: rest, h => by
    have hc := h c (List.mem_cons_self c rest)
    simp only [splitWsAux, hc, if_true, if_pos rfl]
    exact splitWsAux_nil_of_all_ws rest fun d hd => h d (List.mem_cons_of_mem c hd)

theorem mem_takeWhile_ws {p : Char → Bool} :
    ∀ (l : List Char) (x : Char), x ∈ l.takeWhile p → p x = true
  | [], x, h => by simp [List.takeWhile] at h
  | c :: rest, x, h => by
    rw [List.takeWhile] at h
    cases hc : p c with
    | false => rw [hc] at h; simp at h
    | true =>
      rw [hc] at h
      rcases List.mem_cons.mp h with rfl | h2
      · exact hc
      · exact mem_takeWhile_ws rest x h2

theorem all_ws_of_jsTrim_nil {l : List Char} (h : jsTrim l = []) :
    ∀ c ∈ l, isWsChar c = true := by
  rw [jsTrim, List.reverse_eq_nil_iff, List.dropWhile_eq_nil_iff] at h
  have hdrop : ∀ c ∈ l.dropWhile isWsChar, isWsChar c = true := by
    intro c hc
    exact h c (List.mem_reverse.mpr hc)
  intro c hc
  rw [← List.takeWhile_append_dropWhile (p := isWsChar) (l := l)] at hc
  rcases List.mem_append.mp hc with htake | hdrop2
  · exact mem_takeWhile_ws l c htake
  · exact hdrop c hdrop2

theorem jsTrim_ne_nil_of_queryTerms {query : String}
    (h : queryTerms query ≠ []) : jsTrim query.toList ≠ [] := by
  intro htrim
  apply h
  rw [queryTerms, splitWs]
  rw [splitWsAux_nil_of_all_ws]
  · rfl
  · intro c hc
    rw [List.mem_map] at hc
    obtain ⟨c0, hc0, rfl⟩ := hc
    rw [isWsChar_toLower (all_ws_of_jsTrim_nil htrim c0 hc0)]
    exact all_ws_of_jsTrim_nil htrim c0 hc0

/-- C9: for every document and every list of search terms (including
terms containing regex metacharacters) the relevance computation
succeeds — every pattern built from `escapeRegex` compiles, to the
escaped literal term (wrapped in word boundaries for the whole-word
tests) — and the frequency bonus counts the term as a literal
substring: the count is positive exactly when the term occurs
literally (`includes`). -/
theorem relevance_regex_safe :
    (∀ term : List Char, regexCompile (escapeRegexL term) = some (litToks term) ∧
      regexCompile (wbPatStr term) = some (wbToks term)) ∧
    (∀ (item : SearchableItem) (terms : List String),
      calculateRelevanceChecked item terms = some (calculateRelevance item terms)) ∧
    (∀ pat s : List Char, 0 < regexCount (litToks pat) s ↔ hasSub pat s = true) :=
  ⟨fun term => ⟨regexCompile_escape term, regexCompile_wbPat term⟩,
   calculateRelevanceChecked_eq,
   regexCount_pos_iff⟩

/-- C5: a document whose title is exactly the single search term
"hello" and whose preview and full-content fields are empty scores
exactly 105 = 100 (exact title) + 5 (frequency bonus for the one title
occurrence). -/
theorem calculateRelevance_exact_hello (item : SearchableItem)
    (h1 : item.title = "hello") (h2 : item.content_preview = "")
    (h3 : (item.content_full).getD "" = "") :
    calculateRelevance item ["hello"] = 105 := by
  obtain ⟨i, ti, pre, fu⟩ := item
  simp only at h1 h2 h3
  subst h1
  subst h2
  cases fu with
  | none =>
    simp only [calculateRelevance, List.foldl]
    decide
  | some s =>
    simp only [Option.getD_some] at h3
    subst h3
    simp only [calculateRelevance, List.foldl]
    decide

/-- Concrete instance of `calculateRelevance_exact_hello`. -/
theorem calculateRelevance_exact_hello_w :
    calculateRelevance helloItem ["hello"] = 105 :=
  calculateRelevance_exact_hello helloItem rfl rfl rfl

/-- C1, counterexample: for the term "hello" and the preview text
"hello_x" the spec's non-letter-bounded condition holds (the underscore
is not an ASCII letter), yet the code's `\b`-based +10 preview
contribution does not fire (the underscore is a word character for
JavaScript `\b`), so the claimed equivalence is false. -/
theorem wordBoundary_nonLetter_counterexample :
    ¬ (previewPts "hello".toList "hello_x".toList = 10 ↔
       specWholeWord "hello".toList "hello_x".toList = true) := by
  decide

/-- C1, amended: the +10 preview and +3 full-content contributions fire
exactly when the term occurs at a position carrying a JavaScript word
boundary on each side — word-character status (ASCII letter, digit or
underscore, not merely letter) changes at both ends of the span — and
the +30 title contribution fires under the same condition provided
neither the exact-equality nor the starts-with tier fired first. -/
theorem wordBoundary_tiers_js :
    ∀ title preview full term : List Char,
      (previewPts term preview = 10 ↔ wholeWordOccurs term preview) ∧
      (fullPts term full = 3 ↔ wholeWordOccurs term full) ∧
      (titlePts title term = 30 ↔
        (title ≠ term ∧ startsW term title = false ∧ wholeWordOccurs term title)) := by
  intro title preview full term
  refine ⟨?_, ?_, ?_⟩
  · rw [← regexTest_wbToks_iff]
    by_cases h : regexTest (wbToks term) preview = true
    · simp [previewPts, h]
    · simp only [previewPts, h, if_false]
      simp [h]
      split <;> simp
  · rw [← regexTest_wbToks_iff]
    by_cases h : regexTest (wbToks term) full = true
    · simp [fullPts, h]
    · simp only [fullPts, h, if_false]
      simp [h]
      split <;> simp
  · rw [← regexTest_wbToks_iff]
    rw [titlePts]
    by_cases h1 : title = term
    · simp [h1]
    · rw [if_neg h1]
      by_cases h2 : startsW term title = true
      · simp [h2, h1]
      · have h2f : startsW term title = false := by simpa using h2
        rw [h2f]
        by_cases h3 : regexTest (wbToks term) title = true
        · simp [h3, h1, h2f]
        · simp only [h3, if_false]
          simp [h1, h2f, h3]
          split <;> simp

/-- C3, counterexample: `extractKeywords "wind wind"` returns the token
"wind" twice, so the result is not duplicate-free. -/
theorem extractKeywords_not_nodup :
    ¬ (extractKeywords "wind wind").Nodup := by
  decide

/-- C3, amended: `extractKeywords` does not deduplicate — it returns
one token per qualifying occurrence, in order — but every returned
token is significant: longer than 3 characters and not a stop word.
Duplicates collapse only where callers build sets (the similarity
scorer). -/
theorem extractKeywords_filtered (text : String) (w : String)
    (h : w ∈ extractKeywords text) : 3 < w.length ∧ w ∉ stopWords := by
  rw [extractKeywords, List.mem_filter] at h
  obtain ⟨-, hpred⟩ := h
  simpa using hpred

/-- Concrete instance of `extractKeywords_filtered`. -/
theorem extractKeywords_filtered_w :
    ("wind" ∈ extractKeywords "wind wind") ∧
      (3 < "wind".length ∧ "wind" ∉ stopWords) :=
  ⟨by decide, extractKeywords_filtered "wind wind" "wind" (by decide)⟩

/-- C4: a document is never its own neighbour — `similarity(d, d) = 0` —
and for documents with distinct ids the similarity score is symmetric. -/
theorem calculateSimilarity_self_symm :
    (∀ d : RecommendablePost, calculateSimilarity d d = 0) ∧
    (∀ a b : RecommendablePost, a.id ≠ b.id →
      calculateSimilarity a b = calculateSimilarity b a) := by
  constructor
  · intro d
    simp [calculateSimilarity]
  · intro a b hab
    have hba : ¬ b.id = a.id := fun h => hab h.symm
    simp only [calculateSimilarity]
    generalize (extractKeywords (a.title ++ " " ++ a.content_preview)).toFinset = k1
    generalize (extractKeywords (b.title ++ " " ++ b.content_preview)).toFinset = k2
    rw [if_neg hab, if_neg hba]
    by_cases hg : k1.card = 0 ∨ k2.card = 0
    · rw [if_pos hg, if_pos (Or.symm hg)]
    · have hg2 : ¬ (k2.card = 0 ∨ k1.card = 0) := fun h => hg (Or.symm h)
      rw [if_neg hg, if_neg hg2]
      rw [Finset.inter_comm k1 k2, Finset.union_comm k1 k2,
        abs_sub_comm a.created_at b.created_at]
      by_cases hu : a.user_id = b.user_id
      · rw [if_pos hu, if_pos hu.symm]
      · have hu2 : ¬ b.user_id = a.user_id := fun h => hu h.symm
        rw [if_neg hu, if_neg hu2]

/-- Concrete instance of `calculateSimilarity_self_symm`. -/
theorem calculateSimilarity_self_symm_w :
    simPostA.id ≠ simPostB.id ∧
      calculateSimilarity simPostA simPostB = calculateSimilarity simPostB simPostA :=
  ⟨by decide, calculateSimilarity_self_symm.2 simPostA simPostB (by decide)⟩

/-- C10: the similarity score always lies in the closed interval
from 0 to 1: the Jaccard part contributes at most 0.6, the author boost
at most 0.2 and the recency part at most 0.2. -/
theorem calculateSimilarity_bounds :
    ∀ a b : RecommendablePost,
      0 ≤ calculateSimilarity a b ∧ calculateSimilarity a b ≤ 1 := by
  intro a b
  simp only [calculateSimilarity]
  by_cases h0 : a.id = b.id
  · rw [if_pos h0]
    norm_num
  · rw [if_neg h0]
    set k1 := (extractKeywords (a.title ++ " " ++ a.content_preview)).toFinset with hk1
    set k2 := (extractKeywords (b.title ++ " " ++ b.content_preview)).toFinset with hk2
    by_cases hg : k1.card = 0 ∨ k2.card = 0
    · rw [if_pos hg]
      norm_num
    · rw [if_neg hg]
      push_neg at hg
      have hcard : 0 < (k1 ∪ k2).card :=
        lt_of_lt_of_le (Nat.pos_of_ne_zero hg.1)
          (Finset.card_le_card Finset.subset_union_left)
      have hu : 0 < ((k1 ∪ k2).card : ℚ) := by exact_mod_cast hcard
      have hj0 : 0 ≤ ((k1 ∩ k2).card : ℚ) / ((k1 ∪ k2).card : ℚ) :=
        div_nonneg (by positivity) hu.le
      have hj1 : ((k1 ∩ k2).card : ℚ) / ((k1 ∪ k2).card : ℚ) ≤ 1 := by
        rw [div_le_one hu]
        exact_mod_cast Finset.card_le_card
          (Finset.inter_subset_left.trans Finset.subset_union_left)
      have hr0 : 0 ≤ max (0 : ℚ)
          (1 - |a.created_at - b.created_at| / (1000 * 60 * 60 * 24) / 365) :=
        le_max_left _ _
      have hr1 : max (0 : ℚ)
          (1 - |a.created_at - b.created_at| / (1000 * 60 * 60 * 24) / 365) ≤ 1 := by
        apply max_le
        · norm_num
        · apply sub_le_self
          positivity
      by_cases hau : a.user_id = b.user_id
      · rw [if_pos hau]
        constructor <;> linarith
      · rw [if_neg hau]
        constructor <;> linarith

/-- C2, counterexample: `recommend` with limit -1 over a two-candidate
corpus returns a non-empty sequence (JavaScript `slice(0, -1)` drops
only the last scored element), contradicting "values ≤ 0 yield an empty
sequence". -/
theorem useRecommendations_negative_limit_nonempty :
    useRecommendations (some refPost) [candPostA, candPostB] (-1) ≠ [] := by
  decide

/-- C2, amended: a limit of exactly 0 yields an empty sequence, but a
negative limit behaves like JavaScript `slice(0, limit)`: it returns
all scored candidates except the last `|limit|` of them, so the result
has length `max (candidates + limit) 0` and is non-empty whenever the
reference-excluded corpus has more than `|limit|` documents. -/
theorem useRecommendations_nonpos_limit (cur : RecommendablePost)
    (posts : List RecommendablePost) (limit : ℤ) (h : limit ≤ 0) :
    (useRecommendations (some cur) posts limit).length =
      if limit = 0 then 0
      else (((posts.filter (fun p => p.id ≠ cur.id)).length : ℤ) + limit).toNat := by
  simp only [useRecommendations]
  by_cases hp : posts.length = 0
  · rw [if_pos hp]
    have hnil : posts = [] := List.length_eq_zero.mp hp
    subst hnil
    simp only [List.filter_nil, List.length_nil, List.length_eq_zero]
    split
    · rfl
    · rename_i hl
      have hneg : limit < 0 := lt_of_le_of_ne h hl
      omega
  · rw [if_neg hp]
    rw [jsSliceTo]
    by_cases hz : limit = 0
    · subst hz
      simp
    · have hneg : limit < 0 := lt_of_le_of_ne h hz
      rw [if_pos hneg, if_neg hz]
      rw [List.length_take, length_sortKeyDesc]
      omega

/-- Concrete instance of `useRecommendations_nonpos_limit`. -/
theorem useRecommendations_nonpos_limit_w :
    ((-1 : ℤ) ≤ 0) ∧
      (useRecommendations (some refPost) [candPostA, candPostB] (-1)).length =
        (if (-1 : ℤ) = 0 then 0
         else ((([candPostA, candPostB].filter
             (fun p => p.id ≠ refPost.id)).length : ℤ) + (-1)).toNat) :=
  ⟨by decide,
   useRecommendations_nonpos_limit refPost [candPostA, candPostB] (-1) (by decide)⟩

/-- C7: when the query trims to the empty string the search returns the
corpus unchanged, in its original order, and the has-query flag is
false. -/
theorem useSearch_empty_query (items : List SearchableItem) (query : String)
    (h : jsTrim query.toList = []) :
    useSearchFiltered items query = items ∧ isSearching query = false := by
  constructor
  · rw [useSearchFiltered, if_pos h]
  · rw [isSearching, h]
    rfl

/-- Concrete instance of `useSearch_empty_query`. -/
theorem useSearch_empty_query_w :
    (jsTrim "".toList = []) ∧
      (useSearchFiltered [searchItemA] "" = [searchItemA] ∧
        isSearching "" = false) :=
  ⟨rfl, useSearch_empty_query [searchItemA] "" rfl⟩

/-- C6: when the query yields at least one term, a corpus document
appears in the search result exactly when its lower-cased
`title + " " + content_preview` contains at least one query term as a
substring; the relevance sort only reorders the filtered documents. -/
theorem useSearch_filter_membership (items : List SearchableItem) (query : String)
    (d : SearchableItem) (hterms : queryTerms query ≠ []) (hd : d ∈ items) :
    (d ∈ useSearchFiltered items query ↔
      ∃ t ∈ queryTerms query, hasSub t.toList (searchText d) = true) := by
  rw [useSearchFiltered]
  rw [if_neg (jsTrim_ne_nil_of_queryTerms hterms)]
  rw [if_neg (fun hl => hterms (List.length_eq_zero.mp hl))]
  rw [mem_sortKeyDesc]
  rw [List.mem_filter]
  constructor
  · rintro ⟨-, hpred⟩
    simpa using hpred
  · intro hex
    exact ⟨hd, by simpa using hex⟩

/-- Concrete instance of `useSearch_filter_membership`. -/
theorem useSearch_filter_membership_w :
    searchItemA ∈ useSearchFiltered [searchItemA] "cat" :=
  (useSearch_filter_membership [searchItemA] "cat" searchItemA (by decide)
    (by decide)).mpr ⟨"cat", by decide, by decide⟩

/-- C8: within one trending call (a single `now` for the whole call) a
strictly newer document gets a strictly higher recency score
`exp(-ageHours / 168)` — in particular documents one hour apart never
tie — and the older document never precedes the newer one in the
output. -/
theorem useTrendingPosts_newer_first (now : ℚ) (posts : List RecommendablePost)
    (limit : ℤ) (a b : RecommendablePost) (_ha : a ∈ posts) (_hb : b ∈ posts)
    (hab : a.created_at < b.created_at) :
    recencyScore now a < recencyScore now b ∧
      ∀ i j : ℕ, i < j →
        (useTrendingPosts now posts limit)[i]? = some a →
        (useTrendingPosts now posts limit)[j]? = some b → False := by
  have hscore : recencyScore now a < recencyScore now b := by
    rw [recencyScore, recencyScore]
    apply Real.exp_lt_exp.mpr
    apply neg_lt_neg
    have hq : (now - b.created_at) / (1000 * 60 * 60) / 168 <
        (now - a.created_at) / (1000 * 60 * 60) / 168 := by
      linarith
    exact_mod_cast hq
  refine ⟨hscore, ?_⟩
  intro i j hij hia hjb
  have hpw : (useTrendingPosts now posts limit).Pairwise
      (fun u v => recencyScore now v ≤ recencyScore now u) := by
    rw [useTrendingPosts]
    exact List.Pairwise.sublist (jsSliceTo_sublist _ _)
      (pairwise_sortKeyDesc (recencyScore now) posts)
  obtain ⟨hi, hgi⟩ := List.getElem?_eq_some.mp hia
  obtain ⟨hj, hgj⟩ := List.getElem?_eq_some.mp hjb
  rw [List.pairwise_iff_getElem] at hpw
  have hle := hpw i j hi hj hij
  rw [hgi, hgj] at hle
  exact absurd hscore (not_lt.mpr hle)

/-- Concrete instance of `useTrendingPosts_newer_first`. -/
theorem useTrendingPosts_newer_first_w :
    recencyScore 7200000 trendPostA < recencyScore 7200000 trendPostB :=
  (useTrendingPosts_newer_first 7200000 [trendPostA, trendPostB] 5 trendPostA
    trendPostB (by decide) (by decide) (by decide)).1
